import Mathlib

/-!
# Verification of the CCG lexicon parser (`nltk/ccg/lexicon.py`)

This file gives a shallow embedding of the lexicon-parsing module: the
category tokenizer (`PRIM_RE`, `NEXTPRIM_RE`, `APP_RE`, `LEX_RE`,
`COMMENTS_RE` are rendered as explicit character scanners), the bracket
matcher `matchBrackets`, the recursive-descent category parser
`augParseCategory` / `parsePrimitiveCategory`, and the line-oriented
builder `fromstring`, together with the `CCGLexicon` container.

Python strings are embedded as `List Char`; machine-level details do not
arise.  Fallible code returns `Except LexErr`.  The two recursions that
are not structural in the source (`matchBrackets` and the category
parser) are driven by a fuel parameter that is initialised to more than
the length of the input, which the original recursion never exceeds;
this keeps every definition executable by kernel reduction.

The category AST (`PrimitiveCategory`, `FunctionalCategory`, `CCGVar`,
`Direction` and `substitute`) lives in `nltk/ccg/api.py`, which is not
part of the sources under review; those pieces are modelled from the
spec and marked as such.
-/

/-- Python strings are embedded as lists of characters. -/
abbrev Str := List Char

/-- Convert a Lean string literal to the embedded string type. -/
def cl (s : String) : Str := s.toList

/-- Modelled from the spec: `Direction` (from `nltk/ccg/api.py`, not in
the sources under review) records the slash character and the matched
restriction-modifier groups.  `parseApplication` passes the two
(possibly empty) modifier groups of `APP_RE`, so `restrs` is a
two-element list of possibly empty strings. -/
structure Direction where
  slash : Char
  restrs : List Str
deriving DecidableEq

/-- Modelled from the spec: the category AST of `nltk/ccg/api.py` (not
in the sources under review).  `prim` is `PrimitiveCategory` (name plus
ordered subscript list), `func` is `FunctionalCategory` (result,
argument, direction), and `var` is a `CCGVar`, whose identity-based
equality is embedded by a globally fresh numeric identifier. -/
inductive Category where
  | prim (name : Str) (subs : List Str)
  | var (id : Nat)
  | func (res : Category) (arg : Category) (dir : Direction)
deriving DecidableEq

/-- Modelled from the spec: `substitute` of `nltk/ccg/api.py` (not in
the sources under review), specialised to the single-pair substitution
list `[(cvar, v)]` used by `parsePrimitiveCategory`: produce a
structural copy in which every occurrence of the variable `cvar` is
replaced by the variable `v`; primitives are unchanged. -/
def Category.substitute : Category → Option Nat → Nat → Category
  | .prim n s, _, _ => .prim n s
  | .var i, cvar, v => if some i = cvar then .var v else .var i
  | .func r a d, cvar, v => .func (r.substitute cvar v) (a.substitute cvar v) d

/-- The set of variable identifiers occurring in a category tree. -/
def Category.vars : Category → List Nat
  | .prim _ _ => []
  | .var i => [i]
  | .func r a _ => r.vars ++ a.vars

/-- The errors raised by the module, named after the spec's taxonomy
(§7).  In the Python source they surface as `AssertionError`,
`AttributeError` and `IndexError` at the corresponding sites. -/
inductive LexErr where
  | malformedCategory (s : Str)
  | unknownCategoryName (s : Str)
  | malformedLexiconLine (s : Str)
  | noPrimitivesDeclared
deriving DecidableEq

/-- `[A-Za-z]`, the character class of `PRIM_RE`/`NEXTPRIM_RE`. -/
def isAlphaCh (c : Char) : Bool := ('A' ≤ c && c ≤ 'Z') || ('a' ≤ c && c ≤ 'z')

/-- `[A-Za-z,]`, the character class of the subscript bracket. -/
def isSubCh (c : Char) : Bool := isAlphaCh c || c = ','

/-- Python's `\s` / `str.strip` whitespace class. -/
def isPySpace (c : Char) : Bool :=
  c = ' ' || c = '\t' || c = '\n' || c = '\r' || c = '\x0b' || c = '\x0c'

/-- Python's `\w` word-character class (ASCII fragment): the identifier
class `[\w_]` of `LEX_RE`. -/
def isWordChar (c : Char) : Bool := isAlphaCh c || ('0' ≤ c && c ≤ '9') || c = '_'

/-- `str.strip()`: drop leading and trailing whitespace. -/
def pyStrip (s : Str) : Str :=
  ((s.dropWhile isPySpace).reverse.dropWhile isPySpace).reverse

/-- Python's `str.split(',')`: split on commas, never returning an empty
list (splitting the empty string yields `[[]]`, as in Python). -/
def splitOnComma : Str → List Str
  | [] => [[]]
  | c :: cs =>
    if c = ',' then [] :: splitOnComma cs
    else
      match splitOnComma cs with
      | [] => [[c]]
      | g :: gs => (c :: g) :: gs

/-- The optional bracket group `\[[A-Za-z,]+\]` of `PRIM_RE` and
`NEXTPRIM_RE`: an opening `[`, a nonempty run of letters and commas, and
a closing `]`.  Returns the bracket text (brackets included) and the
remainder, or `none` if the group does not match here. -/
def tryBracket (s : Str) : Option (Str × Str) :=
  match s with
  | '[' :: rest =>
    let content := rest.takeWhile isSubCh
    let after := rest.dropWhile isSubCh
    if content = [] then none
    else
      match after with
      | ']' :: rest2 => some ('[' :: content ++ [']'], rest2)
      | _ => none
  | _ => none

/-- `NEXTPRIM_RE.match(string).groups()`: the maximal leading letter run
with its optional subscript bracket, and the remainder of the string.
`none` embeds the regex failing to match (an `AttributeError` in the
source). -/
def nextPrim (s : Str) : Option (Str × Str) :=
  let ls := s.takeWhile isAlphaCh
  let r := s.dropWhile isAlphaCh
  if ls = [] then none
  else
    match tryBracket r with
    | some (br, r2) => some (ls ++ br, r2)
    | none => some (ls, r)

/-- `PRIM_RE.match(cat_string).groups()`: the leading letter run and the
optional subscript bracket (trailing text is ignored by `re.match`). -/
def primChunks (s : Str) : Option (Str × Option Str) :=
  let ls := s.takeWhile isAlphaCh
  let r := s.dropWhile isAlphaCh
  if ls = [] then none
  else
    match tryBracket r with
    | some (br, _) => some (ls, some br)
    | none => some (ls, none)

/-- One optional application modifier `[.,]?` of `APP_RE`: the matched
group (empty or a single `.`/`,`) and the remainder. -/
def optMod : Str → Str × Str
  | [] => ([], [])
  | c :: rest => if c = '.' || c = ',' then ([c], rest) else ([], c :: rest)

/-- `APP_RE.match(rest).groups()`: one slash character, two optional
modifier groups, and the remainder.  `none` embeds the regex failing to
match. -/
def appMatch (s : Str) : Option (Char × Str × Str × Str) :=
  match s with
  | [] => none
  | c :: rest =>
    if c = '/' || c = '\\' then
      let (m1, r1) := optMod rest
      let (m2, r2) := optMod r1
      some (c, m1, m2, r2)
    else none

/-- `parseApplication`: build a `Direction` from the slash and the two
matched modifier groups (`Direction(app[0], app[1:])`). -/
def parseApplication (slash : Char) (m1 m2 : Str) : Direction :=
  ⟨slash, [m1, m2]⟩

/-- The loop body of `matchBrackets`, with the recursive call on a
nested `(` inlined (`matchBrackets rest` is `mbLoop fuel ['('] rest.tail`).
`inside` is the accumulated consumed text.  The fuel only serves
termination: `fuel ≥ rest.length` is always enough (each call site
strictly decreases the remainder). -/
def mbLoop : Nat → Str → Str → Option (Str × Str)
  | 0, _, _ => none
  | fuel + 1, inside, rest =>
    match rest with
    | [] => none
    | c :: cs =>
      if c = ')' then some (inside ++ [')'], cs)
      else if c = '(' then
        match mbLoop fuel ['('] cs with
        | none => none
        | some (part, rest') => mbLoop fuel (inside ++ part) rest'
      else mbLoop fuel (inside ++ [c]) cs

/-- `matchBrackets`: separate the contents matching the first set of
brackets from the rest of the input.  `none` embeds the
`AssertionError('Unmatched bracket in string ...')`. -/
def matchBrackets (s : Str) : Option (Str × Str) :=
  mbLoop s.length ['('] (s.drop 1)

/-- `nextCategory`: the next portion of the category and the rest of the
string — a bracketed group via `matchBrackets`, or a primitive token via
`NEXTPRIM_RE`. -/
def nextCategory (s : Str) : Except LexErr (Str × Str) :=
  if s.head? = some '(' then
    match matchBrackets s with
    | some r => .ok r
    | none => .error (.malformedCategory s)
  else
    match nextPrim s with
    | some r => .ok r
    | none => .error (.malformedCategory s)

/-- `parseSubscripts`: strip the brackets and split on commas; an absent
bracket yields the empty list. -/
def parseSubscripts : Option Str → List Str
  | some s => splitOnComma (s.drop 1).dropLast
  | none => []

/-- The literal token `var`. -/
def varStr : Str := ['v', 'a', 'r']

/-- Python dict lookup `d[k]` / `k in d`, on the association-list
embedding of a dict. -/
def lookupA {α : Type} : List (Str × α) → Str → Option α
  | [], _ => none
  | (k, v) :: rest, key => if k = key then some v else lookupA rest key

/-- `parsePrimitiveCategory`: resolve a `(name, optional bracket)` chunk
pair.  A bare `var` yields the bound variable (freshly allocated when
none is bound, embedding the global `CCGVar` counter as `nv`); otherwise
the name is looked up as a family (adopting its stored variable when
none is bound, else substituting) and then as a primitive; an unknown
name is the `AssertionError('... is neither a family nor primitive
category.')`. -/
def parsePrimitiveCategory (chunks : Str × Option Str) (primitives : List Str)
    (families : List (Str × Category × Option Nat)) (var : Option Nat) (nv : Nat) :
    Except LexErr (Category × Option Nat × Nat) :=
  if chunks.1 = varStr ∧ chunks.2 = none then
    match var with
    | none => .ok (.var nv, some nv, nv + 1)
    | some v => .ok (.var v, some v, nv)
  else
    match lookupA families chunks.1 with
    | some (cat, cvar) =>
      match var with
      | none => .ok (cat, cvar, nv)
      | some v => .ok (cat.substitute cvar v, some v, nv)
    | none =>
      if chunks.1 ∈ primitives then
        .ok (.prim chunks.1 (parseSubscripts chunks.2), var, nv)
      else .error (.unknownCategoryName chunks.1)

mutual

/-- `augParseCategory` (fuelled body): parse the first portion of the
category — recursing on the interior of a bracketed group — and then
hand the accumulated result to the application loop `parseRestF`.  The
fuel only serves termination; the wrapper `augParseCategory` supplies
`line.length + 1`, which the source recursion never exhausts. -/
def augParseF : Nat → Str → List Str → List (Str × Category × Option Nat) →
    Option Nat → Nat → Except LexErr (Category × Option Nat × Nat)
  | 0, line, _, _, _, _ => .error (.malformedCategory line)
  | fuel + 1, line, primitives, families, var, nv =>
    match nextCategory line with
    | .error e => .error e
    | .ok (cat_string, rest) =>
      match
        (if cat_string.head? = some '(' then
          augParseF fuel ((cat_string.drop 1).dropLast) primitives families var nv
        else
          match primChunks cat_string with
          | none => .error (.malformedCategory cat_string)
          | some chunks => parsePrimitiveCategory chunks primitives families var nv) with
      | .error e => .error e
      | .ok (res, var', nv') => parseRestF fuel res var' rest primitives families nv'

/-- The `while rest != ""` loop of `augParseCategory`: consume an
application operator and the next portion of the category, fold the two
into a `FunctionalCategory`, and continue on the remainder. -/
def parseRestF : Nat → Category → Option Nat → Str → List Str →
    List (Str × Category × Option Nat) → Nat → Except LexErr (Category × Option Nat × Nat)
  | 0, _, _, rest, _, _, _ => .error (.malformedCategory rest)
  | fuel + 1, res, var, rest, primitives, families, nv =>
    if rest = [] then .ok (res, var, nv)
    else
      match appMatch rest with
      | none => .error (.malformedCategory rest)
      | some (slash, m1, m2, rest2) =>
        let direction := parseApplication slash m1 m2
        match nextCategory rest2 with
        | .error e => .error e
        | .ok (cat_string, rest3) =>
          match
            (if cat_string.head? = some '(' then
              augParseF fuel ((cat_string.drop 1).dropLast) primitives families var nv
            else
              match primChunks cat_string with
              | none => .error (.malformedCategory cat_string)
              | some chunks => parsePrimitiveCategory chunks primitives families var nv) with
          | .error e => .error e
          | .ok (arg, var', nv') =>
            parseRestF fuel (.func res arg direction) var' rest3 primitives families nv'

end

/-- `augParseCategory`: parse a category string, threading the
unification-variable slot (and the global fresh-variable counter `nv`)
through the recursion. -/
def augParseCategory (line : Str) (primitives : List Str)
    (families : List (Str × Category × Option Nat)) (var : Option Nat) (nv : Nat) :
    Except LexErr (Category × Option Nat × Nat) :=
  augParseF (line.length + 1) line primitives families var nv

/-- `parseCategory`: parse a category string, dropping the variable. -/
def parseCategory (line : Str) (primitives : List Str)
    (families : List (Str × Category × Option Nat)) (nv : Nat) :
    Except LexErr Category :=
  match augParseCategory line primitives families none nv with
  | .error e => .error e
  | .ok (cat, _, _) => .ok cat

instance instDecEqExcept {ε α : Type} [DecidableEq ε] [DecidableEq α] :
    DecidableEq (Except ε α) := fun x y =>
  match x, y with
  | .ok a, .ok b =>
    if h : a = b then isTrue (by rw [h]) else isFalse (by intro hh; cases hh; exact h rfl)
  | .error a, .error b =>
    if h : a = b then isTrue (by rw [h]) else isFalse (by intro hh; cases hh; exact h rfl)
  | .ok _, .error _ => isFalse (by intro hh; cases hh)
  | .error _, .ok _ => isFalse (by intro hh; cases hh)

/-!
## The lexicon container and the line-oriented builder
-/

/-- `CCGLexicon`: the parsed lexicon.  `startCat` is the `_start` field
(`PrimitiveCategory(start)`), `entries` embeds the
`defaultdict(list)` word-to-categories mapping as an insertion-ordered
association list. -/
structure CCGLexicon where
  startCat : Category
  primitives : List Str
  families : List (Str × Category × Option Nat)
  entries : List (Str × List Category)
deriving DecidableEq

/-- `CCGLexicon.start`: the target category for the parser. -/
def CCGLexicon.start (lex : CCGLexicon) : Category := lex.startCat

/-- `CCGLexicon.categories`: all the possible categories for a word.
`self._entries[word]` on a `defaultdict(list)` returns the stored list
for a known word, and for an unknown word inserts the word with a fresh
empty list and returns it; the (possibly updated) lexicon is returned
alongside the result to make that state effect explicit. -/
def CCGLexicon.categories (lex : CCGLexicon) (word : Str) :
    List Category × CCGLexicon :=
  match lookupA lex.entries word with
  | some l => (l, lex)
  | none => ([], { lex with entries := lex.entries ++ [(word, [])] })

/-- Modelled from the spec: the surface rendering of a category
(`__str__` of the AST classes in `nltk/ccg/api.py`, not in the sources
under review; §4.6 of the spec): a primitive renders as
`Name[sub1,sub2]` (bare name when there are no subscripts), a
functional category as `(result<slash><mods>argument)`, a variable by
its identifier. -/
def Category.render : Category → Str
  | .prim n subs =>
    n ++ (if subs.isEmpty then [] else '[' :: (cl ",").intercalate subs ++ [']'])
  | .var i => cl "_var" ++ cl (toString i)
  | .func r a d => '(' :: r.render ++ d.slash :: d.restrs.flatten ++ a.render ++ [')']

/-- The inner `for cat in self._entries[ident]` loop of
`CCGLexicon.__str__`: render the categories of one word separated by
`" | "`, starting from the flag `first = True`. -/
def renderCats : List Category → Str
  | [] => []
  | [c] => c.render
  | c :: cs => c.render ++ cl " | " ++ renderCats cs

/-- The `for ident in self._entries` loop of `CCGLexicon.__str__`.
The boolean `first` flag is reset to `True` before each inner loop and
set to `False` by a nonempty inner loop, so the next word is preceded by
a newline exactly when the previous word had at least one category. -/
def ccgStrAux : Bool → List (Str × List Category) → Str
  | _, [] => []
  | first, (ident, cats) :: rest =>
    (if first then [] else ['\n']) ++ ident ++ cl " => " ++ renderCats cats ++
      ccgStrAux cats.isEmpty rest

/-- `CCGLexicon.__str__`: the debug string rendering of the lexicon. -/
def CCGLexicon.toDebugString (lex : CCGLexicon) : Str :=
  ccgStrAux true lex.entries

/-- `COMMENTS_RE` followed by `.strip()`: drop everything from the first
`#` on, then strip surrounding whitespace. -/
def stripLine (rawLine : Str) : Str :=
  pyStrip (rawLine.takeWhile (fun c => c ≠ '#'))

/-- Python dict update `families[ident] = v`: replace the value at an
existing key in place, or append a new binding. -/
def insertA {α : Type} : List (Str × α) → Str → α → List (Str × α)
  | [], k, v => [(k, v)]
  | (k', v') :: rest, k, v =>
    if k' = k then (k, v) :: rest else (k', v') :: insertA rest k v

/-- `entries[ident].append(cat)` on a `defaultdict(list)`: append to the
stored list of an existing key, or insert the key at the end with a
one-element list. -/
def appendEntry : List (Str × List Category) → Str → Category →
    List (Str × List Category)
  | [], k, c => [(k, [c])]
  | (k', l) :: rest, k, c =>
    if k' = k then (k', l ++ [c]) :: rest else (k', l) :: appendEntry rest k c

/-- The separator group `(::|[-=]+>)` of `LEX_RE`: the literal `::`, or
a nonempty run of `-`/`=` terminated by `>`. -/
def matchSep (s : Str) : Option (Str × Str) :=
  if s.take 2 = [':', ':'] then some ([':', ':'], s.drop 2)
  else
    let run := s.takeWhile (fun c => c = '-' || c = '=')
    let r := s.dropWhile (fun c => c = '-' || c = '=')
    if run ≠ [] ∧ r.head? = some '>' then some (run ++ ['>'], r.drop 1) else none

/-- `LEX_RE.match(line).groups()`: identifier, separator, and the
category text.  The final `\s*(.+)` backtracks to leave a single
whitespace character to `(.+)` when only whitespace follows the
separator (this never happens on stripped lines). -/
def matchLex (line : Str) : Option (Str × Str × Str) :=
  let ident := line.takeWhile isWordChar
  let r1 := line.dropWhile isWordChar
  if ident = [] then none
  else
    match matchSep (r1.dropWhile isPySpace) with
    | none => none
    | some (sep, r3) =>
      let r4 := r3.dropWhile isPySpace
      if r4 ≠ [] then some (ident, sep, r4)
      else if r3 ≠ [] then some (ident, sep, r3.drop (r3.length - 1))
      else none

/-- The in-progress state of `fromstring`: the accumulators
`primitives`, `families`, `entries`, and the global `CCGVar` counter
`nv`. -/
structure BuildState where
  primitives : List Str
  families : List (Str × Category × Option Nat)
  entries : List (Str × List Category)
  nv : Nat
deriving DecidableEq

/-- The body of the `for line in lex_str.splitlines()` loop of
`fromstring`: strip comments and whitespace, skip blank lines,
accumulate `:-` declarations, and otherwise parse the line as a family
definition or a word entry. -/
def processLine (st : BuildState) (rawLine : Str) : Except LexErr BuildState :=
  let line := stripLine rawLine
  if line = [] then .ok st
  else if line.take 2 = [':', '-'] then
    .ok { st with
      primitives :=
        st.primitives ++ (splitOnComma (pyStrip (line.drop 2))).map pyStrip }
  else
    match matchLex line with
    | none => .error (.malformedLexiconLine line)
    | some (ident, sep, catstr) =>
      match augParseCategory catstr st.primitives st.families none st.nv with
      | .error e => .error e
      | .ok (cat, var, nv') =>
        if sep = [':', ':'] then
          .ok { st with families := insertA st.families ident (cat, var), nv := nv' }
        else
          .ok { st with entries := appendEntry st.entries ident cat, nv := nv' }

/-- Fold `processLine` over the lines, aborting at the first error. -/
def processLines : BuildState → List Str → Except LexErr BuildState
  | st, [] => .ok st
  | st, l :: ls =>
    match processLine st l with
    | .error e => .error e
    | .ok st' => processLines st' ls

/-- Python `str.splitlines()` (worker): split at `\n`, `\r` and `\r\n`,
producing no trailing empty line. -/
def splitlinesGo : Str → Str → List Str
  | [], acc => [acc.reverse]
  | ['\n'], acc => [acc.reverse]
  | ['\r'], acc => [acc.reverse]
  | ['\r', '\n'], acc => [acc.reverse]
  | '\n' :: c :: rest, acc => acc.reverse :: splitlinesGo (c :: rest) []
  | '\r' :: '\n' :: c :: rest, acc => acc.reverse :: splitlinesGo (c :: rest) []
  | '\r' :: c :: rest, acc => acc.reverse :: splitlinesGo (c :: rest) []
  | c :: rest, acc => splitlinesGo rest (c :: acc)

/-- Python `str.splitlines()`. -/
def splitlines : Str → List Str
  | [] => []
  | s => splitlinesGo s []

/-- The empty initial state of a build (the `CCGVar` counter starts
fresh). -/
def initialState : BuildState := ⟨[], [], [], 0⟩

/-- `fromstring`: convert a string representation into a lexicon.  The
final `primitives[0]` raises on an empty list (`NoPrimitivesDeclared`);
otherwise `CCGLexicon(primitives[0], primitives, families, entries)`
sets the start category to `PrimitiveCategory(primitives[0])`. -/
def fromstring (src : Str) : Except LexErr CCGLexicon :=
  match processLines initialState (splitlines src) with
  | .error e => .error e
  | .ok st =>
    match st.primitives with
    | [] => .error .noPrimitivesDeclared
    | p :: _ => .ok ⟨.prim p [], st.primitives, st.families, st.entries⟩

/-!
## Specification-side helper definitions

These express, in terms independent of the implementation's recursion
scheme, the notions the claims quantify over: the index of a matching
closing bracket, the primitive names a line declares, and the list a
word is mapped to.
-/

/-- The index (within `s`) of the `)` closing a bracket already opened
`d + 1` times before `s`, matching purely by nesting depth; `none` when
the string is exhausted first.  `closingIndex (s.drop 1) 0` is the index
(within `s.drop 1`) of the partner of an opening `(` at position 0 of
`s`. -/
def closingIndex : Str → Nat → Option Nat
  | [], _ => none
  | c :: cs, d =>
    if c = ')' then
      match d with
      | 0 => some 0
      | d' + 1 => (closingIndex cs d').map (· + 1)
    else if c = '(' then (closingIndex cs (d + 1)).map (· + 1)
    else (closingIndex cs d).map (· + 1)

/-- The primitive names declared by one source line: the
comma-separated, whitespace-trimmed names of a `:-` line, and nothing
for any other line. -/
def primsOfLine (rawLine : Str) : List Str :=
  let line := stripLine rawLine
  if line = [] then []
  else if line.take 2 = [':', '-'] then
    (splitOnComma (pyStrip (line.drop 2))).map pyStrip
  else []

/-- All primitive names declared by a source text, in declaration
order. -/
def declaredPrims (src : Str) : List Str :=
  ((splitlines src).map primsOfLine).flatten

/-- The category list stored for a word (the empty list when the word
has no binding). -/
def getEntries (es : List (Str × List Category)) (w : Str) : List Category :=
  (lookupA es w).getD []

/-- The forward slash direction with no modifiers, as produced by
parsing a bare `/`. -/
def fslash : Direction := ⟨'/', [[], []]⟩

/-!
## Concrete values used by the claim instances
-/

/-- The lexicon built from `:- S\nthe => S`. -/
def lexS : CCGLexicon :=
  ⟨.prim (cl "S") [], [cl "S"], [], [(cl "the", [.prim (cl "S") []])]⟩

/-- The category `NP/N`. -/
def detCat : Category := .func (.prim (cl "NP") []) (.prim (cl "N") []) fslash

/-- The category `S/_var0`: the family template built from `S/var` when
the global variable counter is fresh. -/
def sVarCat : Category := .func (.prim (cl "S") []) (.var 0) fslash

/-!
## Proof infrastructure: single-step evaluation of the category parser

The following lemmas restate one unfolding step of `augParseF` /
`parseRestF` under hypotheses fixing the outcome of the tokenizer and of
primitive resolution; chaining them evaluates a parse symbolically in
the declared primitives and families.
-/

lemma parseRest_nil (fuel : Nat) (res : Category) (var : Option Nat)
    (prims : List Str) (fams : List (Str × Category × Option Nat)) (nv : Nat) :
    parseRestF (fuel + 1) res var [] prims fams nv = .ok (res, var, nv) := rfl

lemma augParse_first_prim (fuel : Nat) (line : Str) (prims : List Str)
    (fams : List (Str × Category × Option Nat)) (var : Option Nat) (nv : Nat)
    (n rest : Str) (chunks : Str × Option Str) (res : Category) (var2 : Option Nat)
    (nv2 : Nat)
    (h1 : nextCategory line = .ok (n, rest)) (h2 : n.head? ≠ some '(')
    (h3 : primChunks n = some chunks)
    (h4 : parsePrimitiveCategory chunks prims fams var nv = .ok (res, var2, nv2)) :
    augParseF (fuel + 1) line prims fams var nv =
      parseRestF fuel res var2 rest prims fams nv2 := by
  simp only [augParseF, h1, h2, h3, h4, if_false, if_true]

lemma augParse_first_paren (fuel : Nat) (line : Str) (prims : List Str)
    (fams : List (Str × Category × Option Nat)) (var : Option Nat) (nv : Nat)
    (grp rest : Str) (res : Category) (var2 : Option Nat) (nv2 : Nat)
    (h1 : nextCategory line = .ok (grp, rest)) (h2 : grp.head? = some '(')
    (h3 : augParseF fuel ((grp.drop 1).dropLast) prims fams var nv = .ok (res, var2, nv2)) :
    augParseF (fuel + 1) line prims fams var nv =
      parseRestF fuel res var2 rest prims fams nv2 := by
  simp only [augParseF, h1, h2, h3, if_false, if_true]

lemma parseRest_cons_prim (fuel : Nat) (res : Category) (var : Option Nat) (rest : Str)
    (prims : List Str) (fams : List (Str × Category × Option Nat)) (nv : Nat)
    (slash : Char) (m1 m2 rest2 : Str) (n rest3 : Str) (chunks : Str × Option Str)
    (arg : Category) (var2 : Option Nat) (nv2 : Nat)
    (h0 : rest ≠ []) (h1 : appMatch rest = some (slash, m1, m2, rest2))
    (h2 : nextCategory rest2 = .ok (n, rest3)) (h3 : n.head? ≠ some '(')
    (h4 : primChunks n = some chunks)
    (h5 : parsePrimitiveCategory chunks prims fams var nv = .ok (arg, var2, nv2)) :
    parseRestF (fuel + 1) res var rest prims fams nv =
      parseRestF fuel (.func res arg (parseApplication slash m1 m2)) var2 rest3 prims fams nv2 := by
  simp only [parseRestF, h0, h1, h2, h3, h4, h5, if_false, if_true]

lemma parseRest_cons_paren (fuel : Nat) (res : Category) (var : Option Nat) (rest : Str)
    (prims : List Str) (fams : List (Str × Category × Option Nat)) (nv : Nat)
    (slash : Char) (m1 m2 rest2 : Str) (grp rest3 : Str)
    (arg : Category) (var2 : Option Nat) (nv2 : Nat)
    (h0 : rest ≠ []) (h1 : appMatch rest = some (slash, m1, m2, rest2))
    (h2 : nextCategory rest2 = .ok (grp, rest3)) (h3 : grp.head? = some '(')
    (h4 : augParseF fuel ((grp.drop 1).dropLast) prims fams var nv = .ok (arg, var2, nv2)) :
    parseRestF (fuel + 1) res var rest prims fams nv =
      parseRestF fuel (.func res arg (parseApplication slash m1 m2)) var2 rest3 prims fams nv2 := by
  simp only [parseRestF, h0, h1, h2, h3, h4, if_false, if_true]

/-- Resolving a declared primitive that is not a family (and not a bare
`var`) yields a `PrimitiveCategory` and leaves the variable slot and the
counter untouched. -/
lemma parsePrim_of_prim (n : Str) (sub : Option Str) (primitives : List Str)
    (families : List (Str × Category × Option Nat)) (var : Option Nat) (nv : Nat)
    (hvar : ¬(n = varStr ∧ sub = none)) (hf : lookupA families n = none)
    (hp : n ∈ primitives) :
    parsePrimitiveCategory (n, sub) primitives families var nv =
      .ok (.prim n (parseSubscripts sub), var, nv) := by
  unfold parsePrimitiveCategory
  simp [hvar, hf, hp]

/-!
## The claims
-/

/-- C1: Category parsing is left-associative: for any lexicon in which
primitives `A`, `B`, `C` are declared (and none of them is shadowed by a
family), parsing `A/B/C` yields a `FunctionalCategory` whose result is
the `FunctionalCategory` obtained from `A/B` and whose argument is the
`PrimitiveCategory` `C`, while parsing `A/(B/C)` yields a
`FunctionalCategory` whose argument is the single `FunctionalCategory`
obtained from `B/C`. -/
theorem parse_left_associative :
    ∀ (primitives : List Str) (families : List (Str × Category × Option Nat)) (nv : Nat),
    lookupA families (cl "A") = none → lookupA families (cl "B") = none →
    lookupA families (cl "C") = none →
    (cl "A") ∈ primitives → (cl "B") ∈ primitives → (cl "C") ∈ primitives →
    augParseCategory (cl "A/B") primitives families none nv =
      .ok (.func (.prim (cl "A") []) (.prim (cl "B") []) fslash, none, nv) ∧
    augParseCategory (cl "A/B/C") primitives families none nv =
      .ok (.func (.func (.prim (cl "A") []) (.prim (cl "B") []) fslash)
            (.prim (cl "C") []) fslash, none, nv) ∧
    augParseCategory (cl "B/C") primitives families none nv =
      .ok (.func (.prim (cl "B") []) (.prim (cl "C") []) fslash, none, nv) ∧
    augParseCategory (cl "A/(B/C)") primitives families none nv =
      .ok (.func (.prim (cl "A") [])
            (.func (.prim (cl "B") []) (.prim (cl "C") []) fslash) fslash, none, nv) := by
  intro primitives families nv hfA hfB hfC hpA hpB hpC
  have eA : parsePrimitiveCategory (cl "A", none) primitives families none nv =
      .ok (.prim (cl "A") [], none, nv) :=
    parsePrim_of_prim _ _ _ _ _ _ (by decide) hfA hpA
  have eB : parsePrimitiveCategory (cl "B", none) primitives families none nv =
      .ok (.prim (cl "B") [], none, nv) :=
    parsePrim_of_prim _ _ _ _ _ _ (by decide) hfB hpB
  have eC : parsePrimitiveCategory (cl "C", none) primitives families none nv =
      .ok (.prim (cl "C") [], none, nv) :=
    parsePrim_of_prim _ _ _ _ _ _ (by decide) hfC hpC
  have two_prims :
      ∀ (f : Nat) (s : Str) (na nb : Str) (ea : _) (eb : _),
        nextCategory s = .ok (na, '/' :: nb) →
        appMatch ('/' :: nb) = some ('/', [], [], nb) →
        nextCategory nb = .ok (nb, []) →
        na.head? ≠ some '(' → nb.head? ≠ some '(' →
        primChunks na = some (na, none) → primChunks nb = some (nb, none) →
        parsePrimitiveCategory (na, none) primitives families none nv =
          .ok (ea, none, nv) →
        parsePrimitiveCategory (nb, none) primitives families none nv =
          .ok (eb, none, nv) →
        augParseF (f + 1 + 1 + 1) s primitives families none nv =
          .ok (.func ea eb fslash, none, nv) := by
    intro f s na nb ea eb h1 h2 h3 h4 h5 h6 h7 h8 h9
    rw [augParse_first_prim (f + 1 + 1) s primitives families none nv na ('/' :: nb)
        (na, none) ea none nv h1 h4 h6 h8]
    rw [parseRest_cons_prim (f + 1) ea none ('/' :: nb) primitives families nv
        '/' [] [] nb nb [] (nb, none) eb none nv (by simp) h2 h3 h5 h7 h9]
    rw [parseRest_nil f]
    rfl
  have pAB : ∀ f : Nat, augParseF (f + 1 + 1 + 1) (cl "A/B") primitives families none nv =
      .ok (.func (.prim (cl "A") []) (.prim (cl "B") []) fslash, none, nv) := by
    intro f
    exact two_prims f (cl "A/B") (cl "A") (cl "B") _ _ rfl rfl rfl (by decide) (by decide)
      rfl rfl eA eB
  have pBC : ∀ f : Nat, augParseF (f + 1 + 1 + 1) (cl "B/C") primitives families none nv =
      .ok (.func (.prim (cl "B") []) (.prim (cl "C") []) fslash, none, nv) := by
    intro f
    exact two_prims f (cl "B/C") (cl "B") (cl "C") _ _ rfl rfl rfl (by decide) (by decide)
      rfl rfl eB eC
  refine ⟨?_, ?_, ?_, ?_⟩
  · show augParseF ((cl "A/B").length + 1) (cl "A/B") primitives families none nv = _
    rw [show (cl "A/B").length + 1 = 1 + 1 + 1 + 1 from rfl]
    exact pAB 1
  · show augParseF ((cl "A/B/C").length + 1) (cl "A/B/C") primitives families none nv = _
    rw [show (cl "A/B/C").length + 1 = 2 + 1 + 1 + 1 + 1 from rfl]
    rw [augParse_first_prim (2 + 1 + 1 + 1) (cl "A/B/C") primitives families none nv
        (cl "A") (cl "/B/C") (cl "A", none) (.prim (cl "A") []) none nv
        (show nextCategory (cl "A/B/C") = .ok (cl "A", cl "/B/C") from rfl)
        (by decide) rfl eA]
    rw [parseRest_cons_prim (2 + 1 + 1) (.prim (cl "A") []) none (cl "/B/C")
        primitives families nv '/' [] [] (cl "B/C") (cl "B") (cl "/C") (cl "B", none)
        (.prim (cl "B") []) none nv (by decide)
        (show appMatch (cl "/B/C") = some ('/', [], [], cl "B/C") from rfl)
        (show nextCategory (cl "B/C") = .ok (cl "B", cl "/C") from rfl)
        (by decide) rfl eB]
    rw [parseRest_cons_prim (2 + 1) (.func (.prim (cl "A") []) (.prim (cl "B") [])
          (parseApplication '/' [] [])) none (cl "/C") primitives families nv
        '/' [] [] (cl "C") (cl "C") [] (cl "C", none) (.prim (cl "C") []) none nv
        (by decide)
        (show appMatch (cl "/C") = some ('/', [], [], cl "C") from rfl)
        (show nextCategory (cl "C") = .ok (cl "C", []) from rfl)
        (by decide) rfl eC]
    rw [parseRest_nil 2]
    rfl
  · show augParseF ((cl "B/C").length + 1) (cl "B/C") primitives families none nv = _
    rw [show (cl "B/C").length + 1 = 1 + 1 + 1 + 1 from rfl]
    exact pBC 1
  · show augParseF ((cl "A/(B/C)").length + 1) (cl "A/(B/C)") primitives families none nv = _
    rw [show (cl "A/(B/C)").length + 1 = 3 + 1 + 1 + 1 + 1 + 1 from rfl]
    rw [augParse_first_prim (3 + 1 + 1 + 1 + 1) (cl "A/(B/C)") primitives families none nv
        (cl "A") (cl "/(B/C)") (cl "A", none) (.prim (cl "A") []) none nv
        (show nextCategory (cl "A/(B/C)") = .ok (cl "A", cl "/(B/C)") from rfl)
        (by decide) rfl eA]
    rw [parseRest_cons_paren (3 + 1 + 1 + 1) (.prim (cl "A") []) none (cl "/(B/C)")
        primitives families nv '/' [] [] (cl "(B/C)") (cl "(B/C)") []
        (.func (.prim (cl "B") []) (.prim (cl "C") []) fslash) none nv (by decide)
        (show appMatch (cl "/(B/C)") = some ('/', [], [], cl "(B/C)") from rfl)
        (show nextCategory (cl "(B/C)") = .ok (cl "(B/C)", []) from rfl)
        (by decide)
        (show augParseF (3 + 1 + 1 + 1) (((cl "(B/C)").drop 1).dropLast) primitives
            families none nv =
            .ok (.func (.prim (cl "B") []) (.prim (cl "C") []) fslash, none, nv) from
          pBC 3)]
    rw [parseRest_nil (3 + 1 + 1)]
    rfl

/-- Witness for C1: the left-associativity facts hold for the concrete
lexicon whose primitives are exactly `A`, `B`, `C` and with no
families. -/
theorem parse_left_associative_witness :
    augParseCategory (cl "A/B") [cl "A", cl "B", cl "C"] [] none 0 =
      .ok (.func (.prim (cl "A") []) (.prim (cl "B") []) fslash, none, 0) ∧
    augParseCategory (cl "A/B/C") [cl "A", cl "B", cl "C"] [] none 0 =
      .ok (.func (.func (.prim (cl "A") []) (.prim (cl "B") []) fslash)
            (.prim (cl "C") []) fslash, none, 0) ∧
    augParseCategory (cl "B/C") [cl "A", cl "B", cl "C"] [] none 0 =
      .ok (.func (.prim (cl "B") []) (.prim (cl "C") []) fslash, none, 0) ∧
    augParseCategory (cl "A/(B/C)") [cl "A", cl "B", cl "C"] [] none 0 =
      .ok (.func (.prim (cl "A") [])
            (.func (.prim (cl "B") []) (.prim (cl "C") []) fslash) fslash, none, 0) :=
  parse_left_associative [cl "A", cl "B", cl "C"] [] 0 rfl rfl rfl
    (by decide) (by decide) (by decide)

/-- C10: the token `var` is a unification variable only when bare: a
bare `var` yields the bound variable (allocating a fresh one when none
is bound) for every primitive list and family table — in particular even
when `var` is also a declared primitive or family name — whereas a
subscripted occurrence such as `var[sg]` goes through ordinary
family/primitive lookup: it resolves as a family or primitive when
registered, and fails with `UnknownCategoryName` when `var` is
neither. -/
theorem var_token_rules :
    (∀ (primitives : List Str) (families : List (Str × Category × Option Nat)) (nv : Nat),
       parsePrimitiveCategory (varStr, none) primitives families none nv =
         .ok (.var nv, some nv, nv + 1)) ∧
    (∀ (primitives : List Str) (families : List (Str × Category × Option Nat)) (v nv : Nat),
       parsePrimitiveCategory (varStr, none) primitives families (some v) nv =
         .ok (.var v, some v, nv)) ∧
    (∀ (primitives : List Str) (families : List (Str × Category × Option Nat))
       (var : Option Nat) (nv : Nat) (sub : Str),
       lookupA families varStr = none → varStr ∉ primitives →
       parsePrimitiveCategory (varStr, some sub) primitives families var nv =
         .error (.unknownCategoryName varStr)) ∧
    (∀ (primitives : List Str) (families : List (Str × Category × Option Nat))
       (var : Option Nat) (nv : Nat) (sub : Str),
       lookupA families varStr = none → varStr ∈ primitives →
       parsePrimitiveCategory (varStr, some sub) primitives families var nv =
         .ok (.prim varStr (parseSubscripts (some sub)), var, nv)) ∧
    (∀ (primitives : List Str) (families : List (Str × Category × Option Nat))
       (nv : Nat) (sub : Str) (cat : Category) (cvar : Option Nat),
       lookupA families varStr = some (cat, cvar) →
       parsePrimitiveCategory (varStr, some sub) primitives families none nv =
         .ok (cat, cvar, nv)) ∧
    (∀ (var : Option Nat) (nv : Nat),
       augParseCategory (cl "var[sg]") [] [] var nv =
         .error (.unknownCategoryName varStr)) := by
  refine ⟨fun _ _ _ => rfl, fun _ _ _ _ => rfl, ?_, ?_, ?_, fun _ _ => rfl⟩
  · intro primitives families var nv sub hf hp
    unfold parsePrimitiveCategory
    simp [hf, hp]
  · intro primitives families var nv sub hf hp
    unfold parsePrimitiveCategory
    simp [hf, hp]
  · intro primitives families nv sub cat cvar hf
    unfold parsePrimitiveCategory
    simp [hf]

/-- Witness for C10: concrete instances of the `var` resolution rules
with an empty lexicon (fresh allocation, bound reuse, and the
`UnknownCategoryName` failure of `var[sg]`). -/
theorem var_token_rules_witness :
    parsePrimitiveCategory (varStr, none) [] [] none 0 = .ok (.var 0, some 0, 1) ∧
    parsePrimitiveCategory (varStr, none) [] [] (some 7) 0 = .ok (.var 7, some 7, 0) ∧
    parsePrimitiveCategory (varStr, some (cl "[sg]")) [] [] none 0 =
      .error (.unknownCategoryName varStr) :=
  ⟨var_token_rules.1 [] [] 0, var_token_rules.2.1 [] [] 7 0,
    var_token_rules.2.2.1 [] [] none 0 (cl "[sg]") rfl (by decide)⟩

/-- C2, counterexample: with the family `F :: S/var` referenced from the
two word-entry lines `w1 => F` and `w2 => F`, both entries receive the
very family template `S/_var0`, and the unification variable `0` occurs
in both entries' categories — refuting that variables of distinct
entries are always distinct. -/
theorem family_var_leak_cex :
    fromstring (cl ":- S\nF :: S/var\nw1 => F\nw2 => F") =
      .ok ⟨.prim (cl "S") [], [cl "S"], [(cl "F", (sVarCat, some 0))],
           [(cl "w1", [sVarCat]), (cl "w2", [sVarCat])]⟩ ∧
    sVarCat.vars = [0] :=
  ⟨rfl, rfl⟩

/-!
## Proof infrastructure: the line-oriented builder
-/

lemma lookupA_insertA_self {α : Type} (es : List (Str × α)) (k : Str) (v : α) :
    lookupA (insertA es k v) k = some v := by
  induction es with
  | nil => simp [insertA, lookupA]
  | cons hd tl ih =>
    obtain ⟨k', v'⟩ := hd
    by_cases h : k' = k
    · simp [insertA, h, lookupA]
    · simp [insertA, h, lookupA, ih]

/-- A line matched by `LEX_RE` is neither blank nor a `:-`
declaration. -/
lemma matchLex_some_shape (line : Str) (x : Str × Str × Str)
    (h : matchLex line = some x) : line ≠ [] ∧ line.take 2 ≠ [':', '-'] := by
  constructor
  · intro hnil
    rw [hnil] at h
    simp [matchLex] at h
  · intro htake
    cases line with
    | nil => simp [matchLex] at h
    | cons c rest =>
      have ht2 : c :: rest.take 1 = [':', '-'] := htake
      injection ht2 with hc _
      subst hc
      simp [matchLex, List.takeWhile_cons, show isWordChar ':' = false from rfl] at h

/-- Processing a word-entry line appends the parsed category to the
word's list and touches nothing else. -/
lemma processLine_word (st : BuildState) (rawLine : Str) (ident sep catstr : Str)
    (cat : Category) (var : Option Nat) (nv' : Nat)
    (h2 : matchLex (stripLine rawLine) = some (ident, sep, catstr))
    (h3 : sep ≠ [':', ':'])
    (haug : augParseCategory catstr st.primitives st.families none st.nv =
      .ok (cat, var, nv')) :
    processLine st rawLine =
      .ok { st with entries := appendEntry st.entries ident cat, nv := nv' } := by
  obtain ⟨hne, htake⟩ := matchLex_some_shape _ _ h2
  unfold processLine
  rw [if_neg hne, if_neg htake, h2]
  simp only [haug]
  rw [if_neg h3]

/-- Processing a family-definition line stores the parsed
category-variable pair under the identifier (overwriting any existing
binding) and touches nothing else. -/
lemma processLine_family (st : BuildState) (rawLine : Str) (ident catstr : Str)
    (cat : Category) (var : Option Nat) (nv' : Nat)
    (h2 : matchLex (stripLine rawLine) = some (ident, [':', ':'], catstr))
    (haug : augParseCategory catstr st.primitives st.families none st.nv =
      .ok (cat, var, nv')) :
    processLine st rawLine =
      .ok { st with families := insertA st.families ident (cat, var), nv := nv' } := by
  obtain ⟨hne, htake⟩ := matchLex_some_shape _ _ h2
  unfold processLine
  rw [if_neg hne, if_neg htake, h2]
  simp only [haug, if_true]

lemma processLines_nil (st : BuildState) : processLines st [] = .ok st := rfl

lemma processLines_cons (st : BuildState) (l : Str) (ls : List Str) :
    processLines st (l :: ls) =
      match processLine st l with
      | .error e => .error e
      | .ok st' => processLines st' ls := rfl

/-- A successfully processed line leaves the entries table unchanged or
appends one category to one word. -/
lemma processLine_shape (st : BuildState) (l : Str) (st' : BuildState)
    (h : processLine st l = .ok st') :
    st'.entries = st.entries ∨
      ∃ ident cat, st'.entries = appendEntry st.entries ident cat := by
  simp only [processLine] at h
  split at h
  · cases h; exact Or.inl rfl
  · split at h
    · cases h; exact Or.inl rfl
    · split at h
      · simp at h
      · split at h
        · simp at h
        · split at h
          · cases h; exact Or.inl rfl
          · cases h; exact Or.inr ⟨_, _, rfl⟩

/-- A successfully processed line extends the primitive list by exactly
the names it declares. -/
lemma processLine_primitives (st : BuildState) (l : Str) (st' : BuildState)
    (h : processLine st l = .ok st') :
    st'.primitives = st.primitives ++ primsOfLine l := by
  simp only [processLine] at h
  unfold primsOfLine
  split at h
  · cases h
    rename_i hb
    simp [hb]
  · rename_i hb
    split at h
    · cases h
      rename_i hd
      simp [hb, hd]
    · rename_i hd
      split at h
      · simp at h
      · split at h
        · simp at h
        · split at h
          · cases h; simp [hb, hd]
          · cases h; simp [hb, hd]

lemma processLines_append (st : BuildState) (l1 l2 : List Str) :
    processLines st (l1 ++ l2) =
      match processLines st l1 with
      | .error e => .error e
      | .ok st' => processLines st' l2 := by
  induction l1 generalizing st with
  | nil => rfl
  | cons l ls ih =>
    rw [List.cons_append, processLines_cons, processLines_cons]
    cases h : processLine st l with
    | error e => simp
    | ok st2 => simp [ih]

/-- A successful build pass accumulates exactly the declared primitive
names, in declaration order. -/
lemma processLines_primitives (st : BuildState) (ls : List Str) (st' : BuildState)
    (h : processLines st ls = .ok st') :
    st'.primitives = st.primitives ++ (ls.map primsOfLine).flatten := by
  induction ls generalizing st with
  | nil =>
    cases h
    simp
  | cons l ls ih =>
    rw [processLines_cons] at h
    split at h
    · simp at h
    · rename_i st2 heq
      rw [ih st2 h, processLine_primitives st l st2 heq]
      simp

lemma getEntries_cons (k : Str) (v : List Category) (es : List (Str × List Category))
    (w : Str) :
    getEntries ((k, v) :: es) w = if k = w then v else getEntries es w := by
  by_cases h : k = w <;> simp [getEntries, lookupA, h]

/-- `entries[ident].append(cat)` changes only the list stored for
`ident`, by appending `cat` to it. -/
lemma getEntries_appendEntry (es : List (Str × List Category)) (k : Str)
    (c : Category) (w : Str) :
    getEntries (appendEntry es k c) w =
      if k = w then getEntries es w ++ [c] else getEntries es w := by
  induction es with
  | nil =>
    by_cases h : k = w <;> simp [appendEntry, getEntries, lookupA, h]
  | cons hd tl ih =>
    obtain ⟨k', l⟩ := hd
    by_cases h1 : k' = k
    · subst h1
      rw [show appendEntry ((k', l) :: tl) k' c = (k', l ++ [c]) :: tl from by
        simp [appendEntry]]
      rw [getEntries_cons, getEntries_cons]
      by_cases h2 : k' = w <;> simp [h2]
    · rw [show appendEntry ((k', l) :: tl) k c = (k', l) :: appendEntry tl k c from by
        simp [appendEntry, h1]]
      rw [getEntries_cons, getEntries_cons, ih]
      by_cases h2 : k' = w
      · have hkw : ¬ k = w := fun hh => h1 (h2.trans hh.symm)
        simp [h2, hkw]
      · simp [h2]

/-- C2, amended: word-entry processing never modifies the family table
(the stored family template is reusable unmodified); and for a family
with no stored unification variable, such as `Det :: NP/N`, two
word-entry uses produce equal, variable-free category trees, so no
variable is shared between those entries.  (As the counterexample shows,
a family whose template does carry a variable leaks that variable to
every entry that references it with no variable yet bound, so the
original universal no-leakage statement fails.) -/
theorem family_reuse_amended :
    (∀ (st : BuildState) (rawLine : Str) (st' : BuildState) (ident sep catstr : Str),
       processLine st rawLine = .ok st' →
       matchLex (stripLine rawLine) = some (ident, sep, catstr) →
       sep ≠ [':', ':'] →
       st'.families = st.families) ∧
    (fromstring (cl ":- S,NP,N\nDet :: NP/N\na => Det\nb => Det") =
      .ok ⟨.prim (cl "S") [], [cl "S", cl "NP", cl "N"],
           [(cl "Det", (detCat, none))],
           [(cl "a", [detCat]), (cl "b", [detCat])]⟩) ∧
    detCat.vars = ([] : List Nat) := by
  refine ⟨?_, rfl, rfl⟩
  intro st rawLine st' ident sep catstr h1 h2 h3
  obtain ⟨hne, htake⟩ := matchLex_some_shape _ _ h2
  simp only [processLine] at h1
  rw [if_neg hne, if_neg htake] at h1
  simp only [h2] at h1
  cases haug : augParseCategory catstr st.primitives st.families none st.nv with
  | error e =>
    simp [haug] at h1
  | ok t =>
    obtain ⟨cat, var, nv'⟩ := t
    simp only [haug] at h1
    rw [if_neg h3] at h1
    cases h1
    rfl

/-- Witness for the amended C2: processing the word entry `x => S` on a
one-primitive state leaves the (empty) family table unchanged. -/
theorem family_reuse_amended_witness :
    (BuildState.families
      ⟨[cl "S"], [], [(cl "x", [Category.prim (cl "S") []])], 0⟩) =
      BuildState.families ⟨[cl "S"], [], [], 0⟩ :=
  family_reuse_amended.1 ⟨[cl "S"], [], [], 0⟩ (cl "x => S")
    ⟨[cl "S"], [], [(cl "x", [Category.prim (cl "S") []])], 0⟩
    (cl "x") (cl "=>") (cl "S") rfl rfl (by decide)

/-- C3, counterexample: on the lexicon built from `:- S\nthe => S`,
calling `categories("zzz")` does not leave the lexicon unchanged: the
`defaultdict` lookup inserts the key `zzz` with an empty list, and the
debug string rendering changes (it gains a `zzz => ` line). -/
theorem categories_mutates_cex :
    fromstring (cl ":- S\nthe => S") = .ok lexS ∧
    (lexS.categories (cl "zzz")).2 ≠ lexS ∧
    ((lexS.categories (cl "zzz")).2).toDebugString ≠ lexS.toDebugString :=
  ⟨rfl, by decide, by decide⟩

/-- C3, amended: after building, `categories(w)` for a word with stored
entries returns the stored list and leaves the lexicon unchanged, but
for an unknown word it returns an empty sequence while inserting the
word with an empty list at the end of the mapping (the `defaultdict`
side effect), which changes the key set and the debug rendering;
`start()` is a pure read. -/
theorem categories_state_effect :
    (∀ (lex : CCGLexicon) (w : Str) (l : List Category),
       lookupA lex.entries w = some l → lex.categories w = (l, lex)) ∧
    (∀ (lex : CCGLexicon) (w : Str),
       lookupA lex.entries w = none →
       lex.categories w = ([], { lex with entries := lex.entries ++ [(w, [])] })) := by
  constructor
  · intro lex w l h
    simp [CCGLexicon.categories, h]
  · intro lex w h
    simp [CCGLexicon.categories, h]

/-- Witness for the amended C3: on the lexicon built from
`:- S\nthe => S`, a known-word lookup is pure and an unknown-word lookup
inserts the new key. -/
theorem categories_state_effect_witness :
    lexS.categories (cl "the") = ([.prim (cl "S") []], lexS) ∧
    lexS.categories (cl "zzz") =
      ([], { lexS with entries := lexS.entries ++ [(cl "zzz", [])] }) :=
  ⟨categories_state_effect.1 lexS (cl "the") [.prim (cl "S") []] rfl,
   categories_state_effect.2 lexS (cl "zzz") rfl⟩

/-- C4: `categories` never signals an error — for any lexicon it
returns the stored list for a known word and the empty sequence for an
unknown word; the stored lists are in declaration order: each processed
line can only append to a word's list (never reorder or drop), and a
word defined twice gets both categories in source order. -/
theorem categories_total_and_ordered :
    (∀ (lex : CCGLexicon) (w : Str),
       lookupA lex.entries w = none → (lex.categories w).1 = []) ∧
    (∀ (lex : CCGLexicon) (w : Str) (l : List Category),
       lookupA lex.entries w = some l → (lex.categories w).1 = l) ∧
    (∀ (st : BuildState) (l : Str) (st' : BuildState) (w : Str),
       processLine st l = .ok st' →
       getEntries st.entries w <+: getEntries st'.entries w) ∧
    ((fromstring (cl ":- S,N\nthe => S\nthe => N")).map
        (fun lex => (lex.categories (cl "the")).1) =
      .ok [.prim (cl "S") [], .prim (cl "N") []]) := by
  refine ⟨?_, ?_, ?_, rfl⟩
  · intro lex w h
    simp [CCGLexicon.categories, h]
  · intro lex w l h
    simp [CCGLexicon.categories, h]
  · intro st l st' w h
    rcases processLine_shape st l st' h with heq | ⟨ident, cat, heq⟩
    · rw [heq]
    · rw [heq, getEntries_appendEntry]
      by_cases hk : ident = w
      · rw [if_pos hk]
        exact List.prefix_append _ _
      · rw [if_neg hk]

/-- Witness for C4: concrete unknown-word and known-word lookups on the
lexicon built from `:- S\nthe => S`, and a concrete append-only step. -/
theorem categories_total_and_ordered_witness :
    ((lexS.categories (cl "zzz")).1 = [] ∧
     (lexS.categories (cl "the")).1 = [.prim (cl "S") []]) ∧
    getEntries (BuildState.entries ⟨[cl "S"], [], [(cl "the", [.prim (cl "S") []])], 0⟩)
        (cl "the") <+:
      getEntries
        (BuildState.entries
          ⟨[cl "S"], [], [(cl "the", [.prim (cl "S") [], .prim (cl "S") []])], 0⟩)
        (cl "the") :=
  ⟨⟨categories_total_and_ordered.1 lexS (cl "zzz") rfl,
    categories_total_and_ordered.2.1 lexS (cl "the") [.prim (cl "S") []] rfl⟩,
   categories_total_and_ordered.2.2.1
     ⟨[cl "S"], [], [(cl "the", [.prim (cl "S") []])], 0⟩ (cl "the => S")
     ⟨[cl "S"], [], [(cl "the", [.prim (cl "S") [], .prim (cl "S") []])], 0⟩
     (cl "the") rfl⟩

/-- C5: the start category is the `PrimitiveCategory` named by the first
primitive declared across the whole source: successive `:-` lines
accumulate their comma-separated, whitespace-trimmed names in order, so
whenever a build succeeds its start category is named by the head of the
accumulated declaration list — and for `:- S,NP,N` followed by `:- VP`
the start is `S`, not `VP`. -/
theorem start_is_first_declared_primitive :
    (∀ (src : Str) (lex : CCGLexicon) (p : Str) (ps : List Str),
       fromstring src = .ok lex → declaredPrims src = p :: ps →
       lex.start = .prim p [] ∧ lex.primitives = p :: ps) ∧
    ((fromstring (cl ":- S,NP,N\n:- VP")).map CCGLexicon.start =
      .ok (.prim (cl "S") [])) := by
  constructor
  · intro src lex p ps hok hdecl
    unfold fromstring at hok
    cases hpl : processLines initialState (splitlines src) with
    | error e => simp [hpl] at hok
    | ok st =>
      simp only [hpl] at hok
      have hp : st.primitives = p :: ps := by
        have h := processLines_primitives initialState (splitlines src) st hpl
        rw [show initialState.primitives = [] from rfl] at h
        rw [h]
        simpa [declaredPrims] using hdecl
      rw [hp] at hok
      have hok2 : Except.ok (⟨.prim p [], p :: ps, st.families, st.entries⟩ : CCGLexicon) =
          .ok lex := hok
      cases hok2
      exact ⟨rfl, rfl⟩
  · rfl

/-- Witness for C5: the lexicon built from `:- S,NP,N\n:- VP` starts at
`S` and accumulated all four primitives in declaration order. -/
theorem start_is_first_declared_primitive_witness :
    CCGLexicon.start ⟨.prim (cl "S") [], [cl "S", cl "NP", cl "N", cl "VP"], [], []⟩ =
      .prim (cl "S") [] ∧
    CCGLexicon.primitives ⟨.prim (cl "S") [], [cl "S", cl "NP", cl "N", cl "VP"], [], []⟩ =
      [cl "S", cl "NP", cl "N", cl "VP"] :=
  start_is_first_declared_primitive.1 (cl ":- S,NP,N\n:- VP")
    ⟨.prim (cl "S") [], [cl "S", cl "NP", cl "N", cl "VP"], [], []⟩
    (cl "S") [cl "NP", cl "N", cl "VP"] rfl rfl

/-- C7: a non-blank, non-declaration line that fails the
`<identifier> <separator> <categoryText>` pattern of `LEX_RE` makes the
whole build abort with `MalformedLexiconLine` at the first such line
(whatever follows it), and no lexicon is returned; in particular
building `:- S\nfoo ## N` fails that way (its second line strips to
`foo`). -/
theorem malformed_line_aborts_build :
    (∀ (src : Str) (pre : List Str) (bad : Str) (post : List Str) (st : BuildState),
       splitlines src = pre ++ bad :: post →
       processLines initialState pre = .ok st →
       stripLine bad ≠ [] → (stripLine bad).take 2 ≠ [':', '-'] →
       matchLex (stripLine bad) = none →
       fromstring src = .error (.malformedLexiconLine (stripLine bad))) ∧
    (fromstring (cl ":- S\nfoo ## N") = .error (.malformedLexiconLine (cl "foo"))) := by
  constructor
  · intro src pre bad post st hsplit hpre h1 h2 h3
    have hbad : processLine st bad = .error (.malformedLexiconLine (stripLine bad)) := by
      unfold processLine
      rw [if_neg h1, if_neg h2, h3]
    have hall : processLines initialState (splitlines src) =
        .error (.malformedLexiconLine (stripLine bad)) := by
      rw [hsplit, processLines_append, hpre]
      show processLines st (bad :: post) = _
      rw [processLines_cons, hbad]
    unfold fromstring
    rw [hall]
  · rfl

/-- Witness for C7: the general abort statement applied to the concrete
source `:- S\nfoo ## N`, whose second line strips to `foo` and fails
`LEX_RE`. -/
theorem malformed_line_aborts_build_witness :
    fromstring (cl ":- S\nfoo ## N") =
      .error (.malformedLexiconLine (stripLine (cl "foo ## N"))) :=
  malformed_line_aborts_build.1 (cl ":- S\nfoo ## N") [cl ":- S"] (cl "foo ## N") []
    ⟨[cl "S"], [], [], 0⟩ rfl rfl (by decide) (by decide) rfl

/-- C9: redefining a family is no error and silently overwrites: a
family-definition line whose identifier is already in the table
processes successfully and leaves the table mapping the identifier to
the newly parsed category-variable pair; concretely, building
`:- S,N\nF :: S\nF :: N\nw => F` succeeds, maps `F` to the later
definition `N`, and the reference `w => F` after the redefinition
resolves to `N`. -/
theorem family_redefinition_last_wins :
    (∀ (st : BuildState) (rawLine : Str) (ident catstr : Str) (cat : Category)
       (var : Option Nat) (nv' : Nat),
       matchLex (stripLine rawLine) = some (ident, [':', ':'], catstr) →
       augParseCategory catstr st.primitives st.families none st.nv =
         .ok (cat, var, nv') →
       processLine st rawLine =
         .ok { st with families := insertA st.families ident (cat, var), nv := nv' } ∧
       lookupA (insertA st.families ident (cat, var)) ident = some (cat, var)) ∧
    (fromstring (cl ":- S,N\nF :: S\nF :: N\nw => F") =
      .ok ⟨.prim (cl "S") [], [cl "S", cl "N"],
           [(cl "F", (.prim (cl "N") [], none))],
           [(cl "w", [.prim (cl "N") []])]⟩) := by
  refine ⟨?_, rfl⟩
  intro st rawLine ident catstr cat var nv' h2 haug
  exact ⟨processLine_family st rawLine ident catstr cat var nv' h2 haug,
    lookupA_insertA_self st.families ident (cat, var)⟩

/-- Witness for C9: redefining the already present family `F` (bound to
`S`) by the line `F :: N` succeeds and the table maps `F` to `N`. -/
theorem family_redefinition_last_wins_witness :
    processLine ⟨[cl "S", cl "N"], [(cl "F", (Category.prim (cl "S") [], none))], [], 0⟩
        (cl "F :: N") =
      .ok ⟨[cl "S", cl "N"],
           insertA [(cl "F", (Category.prim (cl "S") [], none))] (cl "F")
             (Category.prim (cl "N") [], none), [], 0⟩ ∧
    lookupA (insertA [(cl "F", (Category.prim (cl "S") [], (none : Option Nat)))] (cl "F")
        (Category.prim (cl "N") [], (none : Option Nat))) (cl "F") =
      some (Category.prim (cl "N") [], (none : Option Nat)) :=
  family_redefinition_last_wins.1
    ⟨[cl "S", cl "N"], [(cl "F", (Category.prim (cl "S") [], none))], [], 0⟩
    (cl "F :: N") (cl "F") (cl "N") (Category.prim (cl "N") []) none 0 rfl rfl

/-!
## Proof infrastructure: the tokenizer on symbolic names
-/

lemma takeWhile_all_append (p : Char → Bool) (xs ys : Str)
    (h1 : ∀ x ∈ xs, p x = true) (h2 : ∀ y, ys.head? = some y → p y = false) :
    (xs ++ ys).takeWhile p = xs ∧ (xs ++ ys).dropWhile p = ys := by
  induction xs with
  | nil =>
    cases ys with
    | nil => exact ⟨rfl, rfl⟩
    | cons y ys' =>
      have := h2 y rfl
      simp [List.takeWhile_cons, List.dropWhile_cons, this]
  | cons x xs' ih =>
    have hx : p x = true := h1 x (List.mem_cons_self x xs')
    have ih' := ih (fun a ha => h1 a (List.mem_cons_of_mem x ha))
    simp [List.takeWhile_cons, List.dropWhile_cons, hx, ih'.1, ih'.2]

lemma tryBracket_closed (conts : Str) (h2 : ∀ x ∈ conts, isSubCh x = true)
    (h3 : conts ≠ []) :
    tryBracket ('[' :: (conts ++ [']'])) = some ('[' :: conts ++ [']'], []) := by
  have hspan := takeWhile_all_append isSubCh conts [']'] h2
    (fun y hy => by cases hy; rfl)
  simp only [tryBracket]
  rw [hspan.1, hspan.2, if_neg h3]
  rfl

lemma nextPrim_of_bracket (n conts : Str)
    (h0 : n ≠ []) (h1 : ∀ x ∈ n, isAlphaCh x = true)
    (h2 : ∀ x ∈ conts, isSubCh x = true) (h3 : conts ≠ []) :
    nextPrim (n ++ '[' :: (conts ++ [']'])) =
      some (n ++ ('[' :: conts ++ [']']), []) := by
  have hspan := takeWhile_all_append isAlphaCh n ('[' :: (conts ++ [']'])) h1
    (fun y hy => by cases hy; rfl)
  simp only [nextPrim]
  rw [hspan.1, hspan.2, if_neg h0, tryBracket_closed conts h2 h3]

lemma primChunks_of_bracket (n conts : Str)
    (h0 : n ≠ []) (h1 : ∀ x ∈ n, isAlphaCh x = true)
    (h2 : ∀ x ∈ conts, isSubCh x = true) (h3 : conts ≠ []) :
    primChunks (n ++ '[' :: (conts ++ [']'])) =
      some (n, some ('[' :: conts ++ [']'])) := by
  have hspan := takeWhile_all_append isAlphaCh n ('[' :: (conts ++ [']'])) h1
    (fun y hy => by cases hy; rfl)
  simp only [primChunks]
  rw [hspan.1, hspan.2, if_neg h0, tryBracket_closed conts h2 h3]

lemma parseSubscripts_bracket (conts : Str) :
    parseSubscripts (some ('[' :: conts ++ [']'])) = splitOnComma conts := by
  simp only [parseSubscripts]
  congr 1
  rw [show ('[' :: conts ++ [']']).drop 1 = conts ++ [']'] from rfl]
  simp

lemma nextPrim_plain (n : Str)
    (h0 : n ≠ []) (h1 : ∀ x ∈ n, isAlphaCh x = true) :
    nextPrim n = some (n, []) := by
  have hspan := takeWhile_all_append isAlphaCh n [] h1 (by intro y hy; cases hy)
  rw [List.append_nil] at hspan
  simp only [nextPrim]
  rw [hspan.1, hspan.2, if_neg h0]
  rfl

lemma primChunks_plain (n : Str)
    (h0 : n ≠ []) (h1 : ∀ x ∈ n, isAlphaCh x = true) :
    primChunks n = some (n, none) := by
  have hspan := takeWhile_all_append isAlphaCh n [] h1 (by intro y hy; cases hy)
  rw [List.append_nil] at hspan
  simp only [primChunks]
  rw [hspan.1, hspan.2, if_neg h0]
  rfl

/-- C8: subscript fidelity.  For every declared primitive name `n` (not
shadowed by a family) and every nonempty bracket content, parsing
`n[<contents>]` yields `PrimitiveCategory n` whose subscript sequence is
exactly the comma-split of the contents, order and duplicates preserved
as written; a primitive written without a bracket gets the empty
subscript list; and concretely `N[sg,pl]` parses to a primitive named
`N` with subscripts exactly `["sg", "pl"]`. -/
theorem subscripts_exact :
    (∀ (n conts : Str) (primitives : List Str)
       (families : List (Str × Category × Option Nat)) (var : Option Nat) (nv : Nat),
       n ≠ [] → (∀ x ∈ n, isAlphaCh x = true) →
       (∀ x ∈ conts, isSubCh x = true) → conts ≠ [] →
       lookupA families n = none → n ∈ primitives →
       augParseCategory (n ++ '[' :: (conts ++ [']'])) primitives families var nv =
         .ok (.prim n (splitOnComma conts), var, nv)) ∧
    (∀ (n : Str) (primitives : List Str)
       (families : List (Str × Category × Option Nat)) (var : Option Nat) (nv : Nat),
       n ≠ [] → (∀ x ∈ n, isAlphaCh x = true) → n ≠ varStr →
       lookupA families n = none → n ∈ primitives →
       augParseCategory n primitives families var nv = .ok (.prim n [], var, nv)) ∧
    (∀ (primitives : List Str) (families : List (Str × Category × Option Nat))
       (var : Option Nat) (nv : Nat),
       lookupA families (cl "N") = none → (cl "N") ∈ primitives →
       augParseCategory (cl "N[sg,pl]") primitives families var nv =
         .ok (.prim (cl "N") [cl "sg", cl "pl"], var, nv)) := by
  have main : ∀ (n conts : Str) (primitives : List Str)
      (families : List (Str × Category × Option Nat)) (var : Option Nat) (nv : Nat),
      n ≠ [] → (∀ x ∈ n, isAlphaCh x = true) →
      (∀ x ∈ conts, isSubCh x = true) → conts ≠ [] →
      lookupA families n = none → n ∈ primitives →
      augParseCategory (n ++ '[' :: (conts ++ [']'])) primitives families var nv =
        .ok (.prim n (splitOnComma conts), var, nv) := by
    intro n conts primitives families var nv h0 h1 h2 h3 hf hp
    obtain ⟨c, ns, hn⟩ : ∃ c ns, n = c :: ns := by
      cases n with
      | nil => exact absurd rfl h0
      | cons c ns => exact ⟨c, ns, rfl⟩
    have hca : isAlphaCh c = true := h1 c (by rw [hn]; exact List.mem_cons_self c ns)
    have hcne : ((n ++ '[' :: (conts ++ [']'])).head? = some '(') → False := by
      rw [hn, List.cons_append, List.head?_cons]
      intro hh
      have hcc : c = '(' := Option.some.inj hh
      subst hcc
      exact absurd hca (by decide)
    have hnext : nextCategory (n ++ '[' :: (conts ++ [']'])) =
        .ok (n ++ ('[' :: conts ++ [']']), []) := by
      unfold nextCategory
      rw [if_neg hcne, nextPrim_of_bracket n conts h0 h1 h2 h3]
    have hprim := parsePrim_of_prim n (some ('[' :: conts ++ [']'])) primitives families
      var nv (by simp) hf hp
    rw [parseSubscripts_bracket] at hprim
    unfold augParseCategory
    rw [augParse_first_prim ((n ++ '[' :: (conts ++ [']'])).length)
        (n ++ '[' :: (conts ++ [']'])) primitives families var nv
        (n ++ ('[' :: conts ++ [']'])) [] (n, some ('[' :: conts ++ [']']))
        (.prim n (splitOnComma conts)) var nv hnext hcne
        (primChunks_of_bracket n conts h0 h1 h2 h3) hprim]
    rw [hn, List.cons_append, List.length_cons, parseRest_nil]
  refine ⟨main, ?_, ?_⟩
  · intro n primitives families var nv h0 h1 hv hf hp
    obtain ⟨c, ns, hn⟩ : ∃ c ns, n = c :: ns := by
      cases n with
      | nil => exact absurd rfl h0
      | cons c ns => exact ⟨c, ns, rfl⟩
    have hca : isAlphaCh c = true := h1 c (by rw [hn]; exact List.mem_cons_self c ns)
    have hcne : (n.head? = some '(') → False := by
      rw [hn, List.head?_cons]
      intro hh
      have hcc : c = '(' := Option.some.inj hh
      subst hcc
      exact absurd hca (by decide)
    have hnext : nextCategory n = .ok (n, []) := by
      unfold nextCategory
      rw [if_neg hcne, nextPrim_plain n h0 h1]
    have hprim : parsePrimitiveCategory (n, none) primitives families var nv =
        .ok (.prim n [], var, nv) :=
      parsePrim_of_prim n none primitives families var nv (by simp [hv]) hf hp
    unfold augParseCategory
    rw [augParse_first_prim n.length n primitives families var nv n [] (n, none)
        (.prim n []) var nv hnext hcne (primChunks_plain n h0 h1) hprim]
    rw [hn, List.length_cons, parseRest_nil]
  · intro primitives families var nv hf hp
    exact main (cl "N") (cl "sg,pl") primitives families var nv (by decide) (by decide)
      (by decide) (by decide) hf hp

/-- Witness for C8: `N[sg,pl]` parses against the one-primitive lexicon
`N` to the primitive `N` with subscripts exactly `["sg", "pl"]`. -/
theorem subscripts_exact_witness :
    augParseCategory (cl "N[sg,pl]") [cl "N"] [] none 0 =
      .ok (.prim (cl "N") [cl "sg", cl "pl"], none, 0) :=
  subscripts_exact.2.2 [cl "N"] [] none 0 rfl (by decide)

/-!
## Proof infrastructure: the bracket matcher against the nesting-depth
specification
-/

lemma closingIndex_nil (d : Nat) : closingIndex [] d = none := rfl

lemma closingIndex_close_zero (cs : Str) : closingIndex (')' :: cs) 0 = some 0 := rfl

lemma closingIndex_close_succ (cs : Str) (e : Nat) :
    closingIndex (')' :: cs) (e + 1) = (closingIndex cs e).map (· + 1) := rfl

lemma closingIndex_open (cs : Str) (d : Nat) :
    closingIndex ('(' :: cs) d = (closingIndex cs (d + 1)).map (· + 1) := rfl

lemma closingIndex_other (c : Char) (cs : Str) (d : Nat) (hc : c ≠ ')') (hp : c ≠ '(') :
    closingIndex (c :: cs) d = (closingIndex cs d).map (· + 1) := by
  simp [closingIndex, hc, hp]

lemma closingIndex_none_mono : ∀ (cs : Str) (d d' : Nat), d ≤ d' →
    closingIndex cs d = none → closingIndex cs d' = none := by
  intro cs
  induction cs with
  | nil => intro d d' _ _; rfl
  | cons c cs ih =>
    intro d d' hdd h
    by_cases hc : c = ')'
    · subst hc
      cases d with
      | zero => rw [closingIndex_close_zero] at h; cases h
      | succ e =>
        cases d' with
        | zero => exact absurd hdd (by omega)
        | succ e' =>
          rw [closingIndex_close_succ] at h ⊢
          rw [Option.map_eq_none'] at h ⊢
          exact ih e e' (by omega) h
    · by_cases hp : c = '('
      · subst hp
        rw [closingIndex_open] at h ⊢
        rw [Option.map_eq_none'] at h ⊢
        exact ih (d + 1) (d' + 1) (by omega) h
      · rw [closingIndex_other c cs _ hc hp] at h ⊢
        rw [Option.map_eq_none'] at h ⊢
        exact ih d d' hdd h

lemma closingIndex_comp : ∀ (cs : Str) (j d₁ d₂ : Nat),
    closingIndex cs d₁ = some j →
    closingIndex cs (d₁ + d₂ + 1) =
      (closingIndex (cs.drop (j + 1)) d₂).map (fun k => j + 1 + k) := by
  intro cs
  induction cs with
  | nil => intro j d₁ d₂ h; cases h
  | cons c cs ih =>
    intro j d₁ d₂ h
    by_cases hc : c = ')'
    · subst hc
      cases d₁ with
      | zero =>
        rw [closingIndex_close_zero] at h
        injection h with hj
        subst hj
        rw [show (0 : Nat) + d₂ + 1 = d₂ + 1 from by omega, closingIndex_close_succ]
        rw [show (0 : Nat) + 1 = 1 from rfl, List.drop_one, List.tail_cons]
        cases closingIndex cs d₂ <;> simp [Nat.add_comm]
      | succ e =>
        rw [closingIndex_close_succ, Option.map_eq_some'] at h
        obtain ⟨j', hj', hjj⟩ := h
        subst hjj
        rw [show e + 1 + d₂ + 1 = (e + d₂ + 1) + 1 from by omega, closingIndex_close_succ]
        rw [ih j' e d₂ hj']
        rw [show List.drop (j' + 1 + 1) (')' :: cs) = List.drop (j' + 1) cs from rfl]
        cases closingIndex (cs.drop (j' + 1)) d₂ <;> simp <;> omega
    · by_cases hp : c = '('
      · subst hp
        rw [closingIndex_open, Option.map_eq_some'] at h
        obtain ⟨j', hj', hjj⟩ := h
        subst hjj
        rw [closingIndex_open]
        rw [show d₁ + d₂ + 1 + 1 = (d₁ + 1) + d₂ + 1 from by omega, ih j' (d₁ + 1) d₂ hj']
        rw [show List.drop (j' + 1 + 1) ('(' :: cs) = List.drop (j' + 1) cs from rfl]
        cases closingIndex (cs.drop (j' + 1)) d₂ <;> simp <;> omega
      · rw [closingIndex_other c cs _ hc hp, Option.map_eq_some'] at h
        obtain ⟨j', hj', hjj⟩ := h
        subst hjj
        rw [closingIndex_other c cs _ hc hp]
        rw [ih j' d₁ d₂ hj']
        rw [show List.drop (j' + 1 + 1) (c :: cs) = List.drop (j' + 1) cs from rfl]
        cases closingIndex (cs.drop (j' + 1)) d₂ <;> simp <;> omega

lemma mbLoop_close (f : Nat) (inside cs : Str) :
    mbLoop (f + 1) inside (')' :: cs) = some (inside ++ [')'], cs) := rfl

lemma mbLoop_open (f : Nat) (inside cs : Str) :
    mbLoop (f + 1) inside ('(' :: cs) =
      match mbLoop f ['('] cs with
      | none => none
      | some (part, rest') => mbLoop f (inside ++ part) rest' := rfl

lemma mbLoop_other (f : Nat) (inside : Str) (c : Char) (cs : Str)
    (hc : c ≠ ')') (hp : c ≠ '(') :
    mbLoop (f + 1) inside (c :: cs) = mbLoop f (inside ++ [c]) cs := by
  simp [mbLoop, hc, hp]

lemma mbLoop_spec : ∀ (f : Nat) (rest inside : Str), rest.length ≤ f →
    (closingIndex rest 0 = none → mbLoop f inside rest = none) ∧
    (∀ i, closingIndex rest 0 = some i →
       mbLoop f inside rest = some (inside ++ rest.take (i + 1), rest.drop (i + 1))) := by
  intro f
  induction f with
  | zero =>
    intro rest inside h
    have hnil : rest = [] := List.eq_nil_of_length_eq_zero (Nat.le_zero.mp h)
    subst hnil
    exact ⟨fun _ => rfl, fun i hi => by cases hi⟩
  | succ f ih =>
    intro rest inside h
    cases rest with
    | nil => exact ⟨fun _ => rfl, fun i hi => by cases hi⟩
    | cons c cs =>
      by_cases hc : c = ')'
      · subst hc
        constructor
        · intro hnone
          rw [closingIndex_close_zero] at hnone
          cases hnone
        · intro i hi
          rw [closingIndex_close_zero] at hi
          injection hi with hi0
          subst hi0
          rw [mbLoop_close]
          rfl
      · by_cases hp : c = '('
        · subst hp
          have hlen : cs.length ≤ f := by simp at h; omega
          constructor
          · intro hnone
            rw [closingIndex_open, Option.map_eq_none'] at hnone
            rw [mbLoop_open]
            cases hci : closingIndex cs 0 with
            | none => rw [(ih cs ['('] hlen).1 hci]
            | some j =>
              have hcomp := closingIndex_comp cs j 0 0 hci
              rw [show (0 : Nat) + 0 + 1 = 1 from rfl] at hcomp
              rw [hcomp, Option.map_eq_none'] at hnone
              rw [(ih cs ['('] hlen).2 j hci]
              show mbLoop f (inside ++ (['('] ++ cs.take (j + 1))) (cs.drop (j + 1)) = none
              have hlen2 : (cs.drop (j + 1)).length ≤ f := by
                rw [List.length_drop]; omega
              exact (ih (cs.drop (j + 1)) _ hlen2).1 hnone
          · intro i hi
            rw [closingIndex_open, Option.map_eq_some'] at hi
            obtain ⟨i', hi', hii⟩ := hi
            subst hii
            rw [mbLoop_open]
            cases hci : closingIndex cs 0 with
            | none =>
              rw [closingIndex_none_mono cs 0 1 (by omega) hci] at hi'
              cases hi'
            | some j =>
              have hcomp := closingIndex_comp cs j 0 0 hci
              rw [show (0 : Nat) + 0 + 1 = 1 from rfl, hi'] at hcomp
              obtain ⟨k, hk, hik⟩ := Option.map_eq_some'.mp hcomp.symm
              rw [(ih cs ['('] hlen).2 j hci]
              show mbLoop f (inside ++ (['('] ++ cs.take (j + 1))) (cs.drop (j + 1)) =
                some (inside ++ ('(' :: cs).take (i' + 1 + 1), ('(' :: cs).drop (i' + 1 + 1))
              have hlen2 : (cs.drop (j + 1)).length ≤ f := by
                rw [List.length_drop]; omega
              rw [(ih (cs.drop (j + 1)) _ hlen2).2 k hk]
              subst hik
              congr 1
              rw [Prod.mk.injEq]
              constructor
              · show inside ++ (['('] ++ cs.take (j + 1)) ++ (cs.drop (j + 1)).take (k + 1) =
                  inside ++ ('(' :: cs).take (j + 1 + k + 1 + 1)
                rw [show ('(' :: cs).take (j + 1 + k + 1 + 1) =
                    '(' :: cs.take (j + 1 + k + 1) from rfl]
                conv_rhs =>
                  rw [show j + 1 + k + 1 = (j + 1) + (k + 1) from by omega, List.take_add]
                simp only [List.append_assoc, List.singleton_append, List.cons_append, List.nil_append]
              · show (cs.drop (j + 1)).drop (k + 1) = ('(' :: cs).drop (j + 1 + k + 1 + 1)
                rw [show ('(' :: cs).drop (j + 1 + k + 1 + 1) =
                    cs.drop (j + 1 + k + 1) from rfl]
                rw [List.drop_drop]
                congr 1
        · have hlen : cs.length ≤ f := by simp at h; omega
          constructor
          · intro hnone
            rw [closingIndex_other c cs 0 hc hp, Option.map_eq_none'] at hnone
            rw [mbLoop_other f inside c cs hc hp]
            exact (ih cs _ hlen).1 hnone
          · intro i hi
            rw [closingIndex_other c cs 0 hc hp, Option.map_eq_some'] at hi
            obtain ⟨i', hi', hii⟩ := hi
            subst hii
            rw [mbLoop_other f inside c cs hc hp, (ih cs _ hlen).2 i' hi']
            congr 1
            rw [Prod.mk.injEq]
            constructor
            · show inside ++ [c] ++ cs.take (i' + 1) = inside ++ (c :: cs).take (i' + 1 + 1)
              simp
            · rfl

/-- C6: for every string whose first character is `(`: when the string
contains the `)` matching that `(` by nesting depth (at index `i` of the
remainder, as computed by `closingIndex`), `matchBrackets` returns the
substring through that `)` inclusive together with the remainder after
it — and the two components concatenate back to the input — and when the
string is exhausted before the matching `)`, `matchBrackets` fails (the
`MalformedCategory` error surfaced by `nextCategory`). -/
theorem matchBrackets_spec :
    ∀ (s : Str), s.head? = some '(' →
    (∀ i, closingIndex (s.drop 1) 0 = some i →
       matchBrackets s = some (s.take (i + 2), s.drop (i + 2)) ∧
       s.take (i + 2) ++ s.drop (i + 2) = s) ∧
    (closingIndex (s.drop 1) 0 = none →
       matchBrackets s = none ∧ nextCategory s = .error (.malformedCategory s)) := by
  intro s hs
  obtain ⟨t, rfl⟩ : ∃ t, s = '(' :: t := by
    cases s with
    | nil => cases hs
    | cons c t =>
      have hcc : c = '(' := Option.some.inj hs
      subst hcc
      exact ⟨t, rfl⟩
  have hspec := mbLoop_spec (('(' :: t).length) t ['('] (by simp)
  have hmb_some : ∀ i, closingIndex t 0 = some i →
      matchBrackets ('(' :: t) = some (('(' :: t).take (i + 2), ('(' :: t).drop (i + 2)) := by
    intro i hi
    show mbLoop (('(' :: t).length) ['('] (('(' :: t).drop 1) = _
    rw [show ('(' :: t).drop 1 = t from rfl, hspec.2 i hi]
    rfl
  have hmb_none : closingIndex t 0 = none → matchBrackets ('(' :: t) = none := by
    intro hnone
    show mbLoop (('(' :: t).length) ['('] (('(' :: t).drop 1) = none
    rw [show ('(' :: t).drop 1 = t from rfl, hspec.1 hnone]
  constructor
  · intro i hi
    rw [show ('(' :: t).drop 1 = t from rfl] at hi
    exact ⟨hmb_some i hi, List.take_append_drop _ _⟩
  · intro hnone
    rw [show ('(' :: t).drop 1 = t from rfl] at hnone
    refine ⟨hmb_none hnone, ?_⟩
    unfold nextCategory
    rw [if_pos hs, hmb_none hnone]

/-- Witness for C6: the matched and unmatched behaviour on the concrete
inputs `(ab)cd` and `(a(b`. -/
theorem matchBrackets_spec_witness :
    (matchBrackets (cl "(ab)cd") = some (cl "(ab)", cl "cd") ∧
     cl "(ab)" ++ cl "cd" = cl "(ab)cd") ∧
    matchBrackets (cl "(a(b") = none :=
  ⟨((matchBrackets_spec (cl "(ab)cd") rfl).1 2 rfl : _),
   ((matchBrackets_spec (cl "(a(b") rfl).2 rfl).1⟩
